import Mathlib

/-!
Verification of the classy-mst member-binding and polymorphic-dispatch engine
(`src/classy-mst.ts`) against its specification.  The TypeScript source is
shallowly embedded: snapshots are association lists of JS values, the
process-wide type tag plus the per-family unions form an explicit system
state, and each exported function of the source (`setTypeTag`, `shim`,
`action`, `mst`, `polymorphic`, `mstWithChildren`) becomes a pure Lean
function over that state.
-/

namespace ClassyMst

/-- JS values as they occur in snapshots (JSON-ish). -/
inductive JsValue where
  | str (s : String)
  | num (n : Int)
  | boolean (b : Bool)
  | null
  | obj (fields : List (String × JsValue))

/-- JS truthiness of a value. -/
def truthyV : JsValue → Bool
  | .str s => s != ""
  | .num n => n != 0
  | .boolean b => b
  | .null => false
  | .obj _ => true

/-- JS ToPropertyKey coercion used when a value indexes an object
(`typeTbl[snap[typeTag]]`). -/
def toPropertyKey : JsValue → String
  | .str s => s
  | .num n => toString n
  | .boolean b => if b then "true" else "false"
  | .null => "null"
  | .obj _ => "[object Object]"

/-- Association-list lookup: first binding of a key wins (JS objects keep
keys unique, ensured by `assocSet`). -/
def assocGet {α : Type} : List (String × α) → String → Option α
  | [], _ => none
  | (k, v) :: rest, key => if k = key then some v else assocGet rest key

/-- Association-list update, modelling JS property assignment: overwrite the
existing binding in place, or append a new one. -/
def assocSet {α : Type} : List (String × α) → String → α → List (String × α)
  | [], key, v => [(key, v)]
  | (k, w) :: rest, key, v =>
      if k = key then (k, v) :: rest else (k, w) :: assocSet rest key v

/-- A snapshot: a plain JS object, keys to values. -/
def Snap : Type := List (String × JsValue)

/-- Read a snapshot property (`snap[key]`); `none` is JS `undefined`. -/
def getProp (snap : Snap) (key : String) : Option JsValue := assocGet snap key

/-- Write a snapshot property (`snap[key] = v`). -/
def setProp (snap : Snap) (key : String) (v : JsValue) : Snap := assocSet snap key v

/-- JS truthiness of a `string | undefined` value such as `typeTag` or
`modelName`: defined and non-empty. -/
def truthyStr : Option String → Bool
  | none => false
  | some s => s != ""

/-- A getter: receiver to returned value (`none` = `undefined`). -/
def Getter : Type := JsValue → Option JsValue

/-- A setter: receiver and argument to returned value. -/
def Setter : Type := JsValue → JsValue → Option JsValue

/-- Source `function dummyGetter() {}`: ignores its receiver and returns
`undefined`. -/
def dummyGetter : Getter := fun _ => none

/-- A property descriptor as manipulated by the views-assembly loop of `mst`
(get/set accessors, enumerable and configurable flags). -/
structure PropDesc where
  get : Option Getter
  set : Option Setter
  enumerable : Bool
  configurable : Bool

/-- The descriptor rebinding in `mst`'s views callback: a getter is wrapped to
call the original with the live node `self` as receiver; a setter-only
descriptor receives `dummyGetter` (mobx-state-tree would otherwise ignore the
property); a setter is wrapped likewise; `enumerable` is forced to `true`. -/
def bindDescriptor (self : JsValue) (d : PropDesc) : PropDesc :=
  let get' : Option Getter :=
    match d.get with
    | some g => some (fun _this => g self)
    | none =>
      match d.set with
      | some _ => some dummyGetter
      | none => none
  let set' : Option Setter :=
    match d.set with
    | some s => some (fun _this v => s self v)
    | none => none
  { get := get', set := set', enumerable := true, configurable := d.configurable }

/-- The loop over `descList` in `mst`'s views callback: every extracted
descriptor is rebound and defined on the result, none is dropped. -/
def bindDescList (self : JsValue) (descList : List (String × PropDesc)) :
    List (String × PropDesc) :=
  descList.map (fun p => (p.1, bindDescriptor self p.2))

/-- One level of a prototype chain: its own `$actions` property, when present,
as the list of decorated method names. -/
structure ProtoLevel where
  actions : Option (List String)
  deriving DecidableEq, Repr

/-- A prototype chain, the object's own level first. -/
def ProtoChain : Type := List ProtoLevel

/-- JS property lookup of `$actions` along a prototype chain. -/
def lookupActions : List ProtoLevel → Option (List String)
  | [] => none
  | l :: rest =>
    match l.actions with
    | some t => some t
    | none => lookupActions rest

/-- Prototype construction in `shim`: with a parent, the new prototype is a
fresh object chained to the parent's `$proto`, and its `$actions` is reset to
an own empty table whenever the chain exposes one (`if(BaseClass.prototype.$actions)
BaseClass.prototype.$actions = {}`); without a parent it is a plain `{}`. -/
def shim (parentProto : Option ProtoChain) : ProtoChain :=
  match parentProto with
  | some pp =>
    let ownActions : Option (List String) :=
      match lookupActions pp with
      | some _ => some []
      | none => none
    ⟨ownActions⟩ :: pp
  | none => [⟨none⟩]

/-- Append a key to the first level of a chain that owns an `$actions` table
(JS mutates the table found by prototype lookup in place). -/
def markFirstActions (key : String) : List ProtoLevel → List ProtoLevel
  | [] => []
  | l :: rest =>
    match l.actions with
    | some t => ⟨some (t ++ [key])⟩ :: rest
    | none => l :: markFirstActions key rest

/-- The `action` decorator: `(target.$actions || (target.$actions = {}))[key] = true`.
If `$actions` resolves anywhere on the chain, that table is mutated in place;
otherwise an own table is created on the target and the key recorded there. -/
def action (key : String) (target : ProtoChain) : ProtoChain :=
  match lookupActions target with
  | some _ => markFirstActions key target
  | none =>
    match target with
    | [] => [⟨some [key]⟩]
    | l :: rest => ⟨some [key]⟩ :: rest

/-- State of one `ClassyUnion`: the model name captured at creation, the
`$proto.$parent` back-reference (index of the parent union), the candidate
type list (`$typeList` minus its leading dispatcher entry, as ids of the
assembled models pushed into it) and the tag table `$typeTbl`. -/
structure UnionData where
  modelName : Option String
  parent : Option Nat
  typeList : List Nat
  typeTbl : List (String × Nat)
  deriving DecidableEq, Repr

/-- The whole system: the process-wide `typeTag` and every union created so
far, indexed by creation order (an `mst`/`polymorphic` call with index `i`
creates both assembled model `i` and union `i`). -/
structure SysState where
  typeTag : Option String
  unions : List UnionData
  deriving DecidableEq, Repr

/-- Initial module state: `typeTag` starts as `'$'`, no unions. -/
def initState : SysState := { typeTag := some "$", unions := [] }

/-- Source `setTypeTag(tag?)`: overwrite the process-wide tag; omitting the
argument (`none`) disables tagging. -/
def setTypeTag (tag : Option String) (st : SysState) : SysState :=
  { st with typeTag := tag }

/-- The union of a state by index. -/
def getU (st : SysState) (i : Nat) : Option UnionData := st.unions.get? i

/-- The snapshot post-processing hook installed by `mst`:
`if(modelName && typeTag && Code.prototype.$parent) snap[typeTag] = modelName`.
All three conjuncts use JS truthiness. -/
def postProcessSnapshot (modelName tag : Option String) (hasParent : Bool)
    (snap : Snap) : Snap :=
  match modelName, tag with
  | some name, some t =>
    if name != "" && t != "" && hasParent then setProp snap t (.str name) else snap
  | _, _ => snap

/-- The snapshot pre-processing hook installed by non-sealed `mst`:
`(snap) => snap || {}`. -/
def preProcessDefault (snap : Option Snap) : Snap :=
  match snap with
  | some s => s
  | none => []

/-- The dispatcher closure placed first in `$typeList`:
`(snap && typeTag && snap[typeTag] && Union.$typeTbl[snap[typeTag]]) || Model`.
Every `&&` is a JS truthiness test; the result is the registered model id or
the union's own base model id. Total: no error is ever raised. -/
def dispatcher (tag : Option String) (typeTbl : List (String × Nat))
    (baseModel : Nat) (snap : Option Snap) : Nat :=
  match snap, tag with
  | some s, some t =>
    if t != "" then
      match getProp s t with
      | some v =>
        if truthyV v then
          match assocGet typeTbl (toPropertyKey v) with
          | some m => m
          | none => baseModel
        else baseModel
      | none => baseModel
    else baseModel
  | _, _ => baseModel

/-- The ancestor walk `for(let Class = Union; Class; Class = Class.$proto.$parent)`
as a fuelled list of union indices, starting at `i` itself. -/
def chainFrom (us : List UnionData) : Nat → Nat → List Nat
  | 0, i => [i]
  | fuel + 1, i =>
    i ::
      match us.get? i with
      | some u =>
        match u.parent with
        | some p => chainFrom us fuel p
        | none => []
      | none => []

/-- Replace the union at one index. -/
def updateAt : List UnionData → Nat → (UnionData → UnionData) → List UnionData
  | [], _, _ => []
  | u :: rest, 0, f => f u :: rest
  | u :: rest, i + 1, f => u :: updateAt rest i f

/-- The loop body of `polymorphic`'s registration walk:
`typeList.push(Model); if(typeTbl && modelName) typeTbl[modelName] = Model`. -/
def registerInUnion (modelName : Option String) (modelId : Nat)
    (u : UnionData) : UnionData :=
  { u with
    typeList := u.typeList ++ [modelId],
    typeTbl :=
      match modelName with
      | some s => if s != "" then assocSet u.typeTbl s modelId else u.typeTbl
      | none => u.typeTbl }

/-- Source `polymorphic(Code, Model, modelName)`: create the union (empty
`$typeTbl`, `$typeList` holding only the dispatcher), then walk the ancestor
chain from the union itself to the root, pushing the new assembled model into
every ancestor's candidate list and, when a truthy name was given, into every
ancestor's tag table.  Returns the new state and the new union's index. -/
def polymorphic (st : SysState) (modelName : Option String)
    (parent : Option Nat) : SysState × Nat :=
  let n := st.unions.length
  let newU : UnionData :=
    { modelName := modelName, parent := parent, typeList := [], typeTbl := [] }
  let us := st.unions ++ [newU]
  let chain := chainFrom us us.length n
  let us' := chain.foldl (fun acc i => updateAt acc i (registerInUnion modelName n)) us
  ({ st with unions := us' }, n)

/-- Source `ClassyOptions`: optional model name and sealed flag (an absent
`sealed` behaves as `false` everywhere it is tested). -/
structure ClassyOptions where
  name : Option String
  sealedFlag : Bool
  deriving DecidableEq, Repr

/-- Argument munging at the top of `mst`: a `ClassyOptions` object in the
third position supplies both options and name; otherwise the third argument
is the name and the fourth the options (defaulted to `{}`). -/
def resolveArgs (modelName : Option (String ⊕ ClassyOptions))
    (options : Option ClassyOptions) : Option String × ClassyOptions :=
  match modelName with
  | some (Sum.inr o) => (o.name, o)
  | some (Sum.inl s) => (some s, options.getD ⟨none, false⟩)
  | none => (none, options.getD ⟨none, false⟩)

/-- Observable shape of an `mst` result: the effective model name, whether
the snapshot-defaulting pre-processing rule was installed, and the index of
the polymorphic union created (none when sealed). -/
structure MstResult where
  name : Option String
  preInstalled : Bool
  unionId : Option Nat
  deriving DecidableEq, Repr

/-- Source `mst(Code, Data, modelName?, options?)`, at the level of the claims:
resolve the name/options arguments; when `options.sealed` is set, return the
plain assembled model (no pre-processing rule, no union, no registration,
state untouched); otherwise install the pre-processing rule and hand the model
to `polymorphic`.  `parent` is `Code.prototype.$parent` as recorded by `shim`. -/
def mst (st : SysState) (parent : Option Nat)
    (modelName : Option (String ⊕ ClassyOptions)) (options : Option ClassyOptions) :
    SysState × MstResult :=
  let r := resolveArgs modelName options
  if r.2.sealedFlag then
    (st, { name := r.1, preInstalled := false, unionId := none })
  else
    let p := polymorphic st r.1 parent
    (p.1, { name := r.1, preInstalled := true, unionId := some p.2 })

/-- Encoding a snapshot of model `i` in state `st`: the post-processing hook
runs with the model's captured name and parent flag and the tag read from the
process-wide registry at this moment. -/
def encodeSnap (st : SysState) (i : Nat) (snap : Snap) : Snap :=
  match getU st i with
  | some u => postProcessSnapshot u.modelName st.typeTag u.parent.isSome snap
  | none => snap

/-- Decoding a snapshot through union `i` in state `st`: the dispatcher runs
with the union's live tag table, its own base model as fallback and the tag
read from the registry at this moment. -/
def decodeSnap (st : SysState) (i : Nat) (snap : Option Snap) : Option Nat :=
  match getU st i with
  | some u => some (dispatcher st.typeTag u.typeTbl i snap)
  | none => none

/-- Source `mstWithChildren(Code, Data, name?)`: builds the children-augmented
branch type, then calls `mst(Code, Branch, 'Node')` — the `name` argument is
never consulted. -/
def mstWithChildren (st : SysState) (parent : Option Nat)
    (name : Option String) : SysState × MstResult :=
  mst st parent (some (Sum.inl "Node")) none

/-- States reachable from module load by the exported operations; a parent
passed to `mst` is a union that already exists. -/
inductive Reachable : SysState → Prop where
  | init : Reachable initState
  | stepSetTypeTag (t : Option String) {st : SysState} :
      Reachable st → Reachable (setTypeTag t st)
  | stepMst {st : SysState} (parent : Option Nat)
      (hp : ∀ j, parent = some j → j < st.unions.length)
      (modelName : Option (String ⊕ ClassyOptions)) (options : Option ClassyOptions) :
      Reachable st → Reachable (mst st parent modelName options).1

/-- Parent back-references always point to earlier-created unions. -/
def parentsWF (us : List UnionData) : Prop :=
  ∀ i u, us.get? i = some u → ∀ p, u.parent = some p → p < i

/-- Strict ancestor relation generated by the parent back-references. -/
inductive AncestorOf (us : List UnionData) : Nat → Nat → Prop where
  | parent {i p : Nat} {u : UnionData} :
      us.get? i = some u → u.parent = some p → AncestorOf us i p
  | tail {i p k : Nat} {u : UnionData} :
      us.get? i = some u → u.parent = some p → AncestorOf us p k →
      AncestorOf us i k

section AssocLemmas

variable {α : Type}

theorem assocGet_assocSet_self (l : List (String × α)) (k : String) (v : α) :
    assocGet (assocSet l k v) k = some v := by
  induction l with
  | nil => simp [assocSet, assocGet]
  | cons hd tl ih =>
    obtain ⟨k', w⟩ := hd
    by_cases hk : k' = k
    · simp [assocSet, assocGet, hk]
    · simp [assocSet, assocGet, hk, ih]

theorem assocGet_assocSet_ne (l : List (String × α)) (k k' : String) (v : α)
    (h : k ≠ k') : assocGet (assocSet l k v) k' = assocGet l k' := by
  induction l with
  | nil => simp [assocSet, assocGet, h]
  | cons hd tl ih =>
    obtain ⟨k₀, w⟩ := hd
    by_cases hk : k₀ = k
    · subst hk
      simp [assocSet, assocGet, h]
    · simp only [assocSet, if_neg hk]
      by_cases hk' : k₀ = k'
      · simp [assocGet, hk']
      · simp [assocGet, hk', ih]

end AssocLemmas

theorem updateAt_get_eq (us : List UnionData) (i : Nat) (f : UnionData → UnionData) :
    (updateAt us i f).get? i = (us.get? i).map f := by
  induction us generalizing i with
  | nil => simp [updateAt]
  | cons u rest ih =>
    cases i with
    | zero => simp [updateAt]
    | succ j => simpa [updateAt] using ih j

theorem updateAt_get_ne (us : List UnionData) (i j : Nat) (f : UnionData → UnionData)
    (h : j ≠ i) : (updateAt us i f).get? j = us.get? j := by
  induction us generalizing i j with
  | nil => simp [updateAt]
  | cons u rest ih =>
    cases i with
    | zero =>
      cases j with
      | zero => exact absurd rfl h
      | succ j' => simp [updateAt]
    | succ i' =>
      cases j with
      | zero => simp [updateAt]
      | succ j' =>
        have : j' ≠ i' := fun hE => h (by simp [hE])
        simpa [updateAt] using ih i' j' this

theorem updateAt_length (us : List UnionData) (i : Nat) (f : UnionData → UnionData) :
    (updateAt us i f).length = us.length := by
  induction us generalizing i with
  | nil => simp [updateAt]
  | cons u rest ih =>
    cases i with
    | zero => simp [updateAt]
    | succ j => simpa [updateAt] using ih j

/-- Folding the registration update over a duplicate-free index list applies
the update once at each listed index and leaves every other union alone. -/
theorem foldl_updateAt_get (chain : List Nat) (hnd : chain.Nodup)
    (us : List UnionData) (f : UnionData → UnionData) (j : Nat) :
    ((chain.foldl (fun acc i => updateAt acc i f) us).get? j) =
      if j ∈ chain then (us.get? j).map f else us.get? j := by
  induction chain generalizing us with
  | nil => simp
  | cons a rest ih =>
    have hnd' : rest.Nodup := hnd.of_cons
    have hna : a ∉ rest := by
      intro hmem
      exact (List.nodup_cons.mp hnd).1 hmem
    by_cases hj : j = a
    · subst hj
      simp only [List.foldl_cons, ih hnd', if_neg hna, List.mem_cons, true_or, if_pos]
      exact updateAt_get_eq us j f
    · simp only [List.foldl_cons, ih hnd', updateAt_get_ne us a j f hj,
        List.mem_cons, hj, false_or]

theorem foldl_updateAt_length (chain : List Nat) (us : List UnionData)
    (f : UnionData → UnionData) :
    (chain.foldl (fun acc i => updateAt acc i f) us).length = us.length := by
  induction chain generalizing us with
  | nil => rfl
  | cons a rest ih => simp [List.foldl_cons, ih, updateAt_length]

theorem self_mem_chainFrom (us : List UnionData) (fuel i : Nat) :
    i ∈ chainFrom us fuel i := by
  cases fuel with
  | zero => simp [chainFrom]
  | succ f => simp [chainFrom]

theorem mem_chainFrom_le (us : List UnionData) (hwf : parentsWF us)
    (fuel i j : Nat) (h : j ∈ chainFrom us fuel i) : j ≤ i := by
  induction fuel generalizing i with
  | zero =>
    simp only [chainFrom, List.mem_singleton] at h
    omega
  | succ f ih =>
    cases hu : us.get? i with
    | none =>
      simp only [chainFrom, hu, List.mem_cons, List.not_mem_nil, or_false] at h
      omega
    | some u =>
      cases hp : u.parent with
      | none =>
        simp only [chainFrom, hu, hp, List.mem_cons, List.not_mem_nil, or_false] at h
        omega
      | some p =>
        simp only [chainFrom, hu, hp, List.mem_cons] at h
        rcases h with h | h
        · omega
        · have hpi : p < i := hwf i u hu p hp
          have := ih p h
          omega

theorem chainFrom_nodup (us : List UnionData) (hwf : parentsWF us)
    (fuel i : Nat) : (chainFrom us fuel i).Nodup := by
  induction fuel generalizing i with
  | zero => simp [chainFrom]
  | succ f ih =>
    cases hu : us.get? i with
    | none =>
      simp only [chainFrom, hu]
      simp
    | some u =>
      cases hp : u.parent with
      | none =>
        simp only [chainFrom, hu, hp]
        simp
      | some p =>
        simp only [chainFrom, hu, hp]
        refine List.nodup_cons.mpr ⟨?_, ih p⟩
        intro hmem
        have hpi : p < i := hwf i u hu p hp
        have := mem_chainFrom_le us hwf f p i hmem
        omega

/-- With enough fuel the walk reaches exactly the union itself and its
ancestors. -/
theorem mem_chainFrom_iff (us : List UnionData) (hwf : parentsWF us) :
    ∀ fuel i j, i < fuel →
      (j ∈ chainFrom us fuel i ↔ (j = i ∨ AncestorOf us i j)) := by
  intro fuel
  induction fuel with
  | zero => intro i j h; omega
  | succ f ih =>
    intro i j hif
    constructor
    · intro hmem
      cases hu : us.get? i with
      | none =>
        simp only [chainFrom, hu, List.mem_cons, List.not_mem_nil, or_false] at hmem
        exact Or.inl hmem
      | some u =>
        cases hp : u.parent with
        | none =>
          simp only [chainFrom, hu, hp, List.mem_cons, List.not_mem_nil, or_false] at hmem
          exact Or.inl hmem
        | some p =>
          simp only [chainFrom, hu, hp, List.mem_cons] at hmem
          rcases hmem with h | h
          · exact Or.inl h
          · have hpi : p < i := hwf i u hu p hp
            have hpf : p < f := by omega
            rcases (ih p j hpf).mp h with hE | hA
            · exact Or.inr (AncestorOf.parent hu (hE ▸ hp))
            · exact Or.inr (AncestorOf.tail hu hp hA)
    · intro hmem
      rcases hmem with hE | hA
      · exact hE ▸ self_mem_chainFrom us (f + 1) i
      · cases hA with
        | parent hu hp =>
          simp only [chainFrom, hu, hp]
          exact List.mem_cons_of_mem _ (self_mem_chainFrom us f _)
        | tail hu hp hA' =>
          simp only [chainFrom, hu, hp]
          refine List.mem_cons_of_mem _ ?_
          have hpi : _ < i := hwf _ _ hu _ hp
          exact (ih _ j (by omega)).mpr (Or.inr hA')

/-- The fresh union record created by `polymorphic` before registration. -/
def newUnion (name : Option String) (p : Option Nat) : UnionData :=
  { modelName := name, parent := p, typeList := [], typeTbl := [] }

theorem get_append_lt (us : List UnionData) (x : UnionData) (i : Nat)
    (h : i < us.length) : (us ++ [x]).get? i = us.get? i := by
  rw [List.get?_append h]

theorem get_append_self (us : List UnionData) (x : UnionData) :
    (us ++ [x]).get? us.length = some x := by
  rw [List.get?_eq_get (by simp)]
  simp

theorem parentsWF_append (us : List UnionData) (hwf : parentsWF us)
    (name : Option String) (p : Option Nat)
    (hp : ∀ j, p = some j → j < us.length) :
    parentsWF (us ++ [newUnion name p]) := by
  intro i u hu q hq
  by_cases hi : i < us.length
  · rw [get_append_lt us _ i hi] at hu
    exact hwf i u hu q hq
  · have hlen : i < us.length + 1 := by
      have := List.get?_eq_some.mp hu
      simpa using this.1
    have hieq : i = us.length := by omega
    subst hieq
    rw [get_append_self] at hu
    cases hu
    exact hp q hq

/-- The ancestor chain walked by `polymorphic`: the new union itself followed
by its recorded ancestors up to the root. -/
def polyChain (st : SysState) (name : Option String) (p : Option Nat) : List Nat :=
  chainFrom (st.unions ++ [newUnion name p]) (st.unions.length + 1) st.unions.length

/-- Characterization of the union list after a `polymorphic` call: every
union on the new model's ancestor chain is updated by one registration, every
other union is untouched (the new union sits at index `st.unions.length`). -/
theorem polymorphic_unions_get (st : SysState) (name : Option String)
    (p : Option Nat) (hwf : parentsWF st.unions)
    (hp : ∀ j, p = some j → j < st.unions.length) (j : Nat) :
    ((polymorphic st name p).1).unions.get? j =
      (if j ∈ polyChain st name p
       then ((st.unions ++ [newUnion name p]).get? j).map
            (registerInUnion name st.unions.length)
       else (st.unions ++ [newUnion name p]).get? j) := by
  have hwf' := parentsWF_append st.unions hwf name p hp
  have hnd := chainFrom_nodup _ hwf' (st.unions.length + 1) st.unions.length
  simp only [polymorphic, polyChain, newUnion, List.length_append, List.length_singleton]
  exact foldl_updateAt_get _ hnd _ _ j

theorem polymorphic_unions_length (st : SysState) (name : Option String)
    (p : Option Nat) :
    ((polymorphic st name p).1).unions.length = st.unions.length + 1 := by
  simp only [polymorphic]
  rw [foldl_updateAt_length]
  simp

theorem polymorphic_typeTag (st : SysState) (name : Option String)
    (p : Option Nat) : ((polymorphic st name p).1).typeTag = st.typeTag := rfl

theorem registerInUnion_parent (name : Option String) (n : Nat) (u : UnionData) :
    (registerInUnion name n u).parent = u.parent := rfl

theorem registerInUnion_modelName (name : Option String) (n : Nat) (u : UnionData) :
    (registerInUnion name n u).modelName = u.modelName := rfl

theorem registerInUnion_typeList (name : Option String) (n : Nat) (u : UnionData) :
    (registerInUnion name n u).typeList = u.typeList ++ [n] := rfl

theorem registerInUnion_tbl_empty_key (name : Option String) (n : Nat)
    (u : UnionData) (h : assocGet u.typeTbl "" = none) :
    assocGet (registerInUnion name n u).typeTbl "" = none := by
  cases name with
  | none => exact h
  | some s =>
    by_cases hs : s = ""
    · simp [registerInUnion, hs, h]
    · have hs' : (s != "") = true := by simp [hs]
      simp only [registerInUnion, hs', if_pos]
      rw [assocGet_assocSet_ne u.typeTbl s "" n hs]
      exact h

/-- Extending an ancestor path by one parent step at its far end. -/
theorem AncestorOf.snoc {us : List UnionData} {a b c : Nat} {u : UnionData}
    (h : AncestorOf us a b) (hu : us.get? b = some u) (hp : u.parent = some c) :
    AncestorOf us a c := by
  induction h with
  | parent hu' hp' =>
    exact AncestorOf.tail hu' hp' (AncestorOf.parent hu hp)
  | tail hu' hp' _ ih =>
    exact AncestorOf.tail hu' hp' (ih hu)

/-- Membership of the parent of a chain member: the chain walked by
`polymorphic` is closed under the parent back-references. -/
theorem polyChain_parent_closed (st : SysState) (name : Option String)
    (p : Option Nat) (hwf : parentsWF st.unions)
    (hp : ∀ j, p = some j → j < st.unions.length)
    {j q : Nat} {u : UnionData}
    (hj : j ∈ polyChain st name p)
    (hu : (st.unions ++ [newUnion name p]).get? j = some u)
    (hq : u.parent = some q) : q ∈ polyChain st name p := by
  have hwf' := parentsWF_append st.unions hwf name p hp
  have hlt : st.unions.length < st.unions.length + 1 := by omega
  have hiff := mem_chainFrom_iff _ hwf' (st.unions.length + 1) st.unions.length
  rcases (hiff j hlt).mp hj with hE | hA
  · subst hE
    exact (hiff q hlt).mpr (Or.inr (AncestorOf.parent hu hq))
  · exact (hiff q hlt).mpr (Or.inr (hA.snoc hu hq))

/-- The invariants every reachable system state satisfies: parents point
backwards, tag tables never hold the empty key, candidate lists only hold
ids of existing models, and candidate lists are closed upward along parent
back-references. -/
structure Invariant (st : SysState) : Prop where
  wf : parentsWF st.unions
  tblKeys : ∀ i u, st.unions.get? i = some u → assocGet u.typeTbl "" = none
  listBound : ∀ i u, st.unions.get? i = some u → ∀ m ∈ u.typeList, m < st.unions.length
  closed : ∀ i u q qu, st.unions.get? i = some u → u.parent = some q →
    st.unions.get? q = some qu → ∀ m ∈ u.typeList, m ∈ qu.typeList

theorem invariant_init : Invariant initState := by
  constructor
  · intro i u h
    simp [initState] at h
  · intro i u h
    simp [initState] at h
  · intro i u h
    simp [initState] at h
  · intro i u q qu h
    simp [initState] at h

theorem invariant_setTypeTag (t : Option String) (st : SysState)
    (inv : Invariant st) : Invariant (setTypeTag t st) :=
  ⟨inv.wf, inv.tblKeys, inv.listBound, inv.closed⟩

theorem get_some_lt (us : List UnionData) (i : Nat) (u : UnionData)
    (h : us.get? i = some u) : i < us.length := by
  by_contra hc
  rw [List.get?_eq_none.mpr (by omega)] at h
  cases h

/-- Decomposition of the state after `polymorphic`: each union either lies on
the registration chain and received exactly one registration, or is exactly
what it was before the call. -/
theorem polymorphic_get_cases (st : SysState) (name : Option String)
    (p : Option Nat) (hwf : parentsWF st.unions)
    (hp : ∀ j, p = some j → j < st.unions.length) (j : Nat) (u' : UnionData)
    (h : ((polymorphic st name p).1).unions.get? j = some u') :
    ∃ u₀, (st.unions ++ [newUnion name p]).get? j = some u₀ ∧
      ((j ∈ polyChain st name p ∧ u' = registerInUnion name st.unions.length u₀) ∨
       (j ∉ polyChain st name p ∧ u' = u₀)) := by
  have hg := polymorphic_unions_get st name p hwf hp j
  rw [h] at hg
  by_cases hc : j ∈ polyChain st name p
  · rw [if_pos hc] at hg
    cases hu : (st.unions ++ [newUnion name p]).get? j with
    | none =>
      rw [hu] at hg
      cases hg
    | some u₀ =>
      rw [hu] at hg
      simp only [Option.map_some'] at hg
      cases hg
      exact ⟨u₀, rfl, Or.inl ⟨hc, rfl⟩⟩
  · rw [if_neg hc] at hg
    exact ⟨u', hg.symm, Or.inr ⟨hc, rfl⟩⟩

theorem invariant_polymorphic (st : SysState) (inv : Invariant st)
    (name : Option String) (p : Option Nat)
    (hp : ∀ j, p = some j → j < st.unions.length) :
    Invariant (polymorphic st name p).1 := by
  have hwf := inv.wf
  have hwf' := parentsWF_append st.unions hwf name p hp
  have hlen := polymorphic_unions_length st name p
  constructor
  · -- parents still point backwards
    intro i u' hu' q hq
    obtain ⟨u₀, hu₀, hcase⟩ := polymorphic_get_cases st name p hwf hp i u' hu'
    have hq₀ : u₀.parent = some q := by
      rcases hcase with ⟨_, rfl⟩ | ⟨_, rfl⟩
      · rw [registerInUnion_parent] at hq
        exact hq
      · exact hq
    exact hwf' i u₀ hu₀ q hq₀
  · -- tag tables never hold the empty key
    intro i u' hu'
    obtain ⟨u₀, hu₀, hcase⟩ := polymorphic_get_cases st name p hwf hp i u' hu'
    have h₀ : assocGet u₀.typeTbl "" = none := by
      by_cases hi : i < st.unions.length
      · rw [get_append_lt _ _ _ hi] at hu₀
        exact inv.tblKeys i u₀ hu₀
      · have hin : i < st.unions.length + 1 := by
          have := get_some_lt _ _ _ hu₀
          simpa using this
        have hie : i = st.unions.length := by omega
        subst hie
        rw [get_append_self] at hu₀
        cases hu₀
        simp [newUnion, assocGet]
    rcases hcase with ⟨_, rfl⟩ | ⟨_, rfl⟩
    · exact registerInUnion_tbl_empty_key name st.unions.length u₀ h₀
    · exact h₀
  · -- candidate lists only mention existing models
    intro i u' hu' m hm
    rw [hlen]
    obtain ⟨u₀, hu₀, hcase⟩ := polymorphic_get_cases st name p hwf hp i u' hu'
    have h₀ : ∀ m ∈ u₀.typeList, m < st.unions.length := by
      by_cases hi : i < st.unions.length
      · rw [get_append_lt _ _ _ hi] at hu₀
        exact inv.listBound i u₀ hu₀
      · have hin : i < st.unions.length + 1 := by
          have := get_some_lt _ _ _ hu₀
          simpa using this
        have hie : i = st.unions.length := by omega
        subst hie
        rw [get_append_self] at hu₀
        cases hu₀
        simp [newUnion]
    rcases hcase with ⟨_, rfl⟩ | ⟨_, rfl⟩
    · rw [registerInUnion_typeList] at hm
      rcases List.mem_append.mp hm with h | h
      · have := h₀ m h
        omega
      · simp only [List.mem_singleton] at h
        omega
    · have := h₀ m hm
      omega
  · -- candidate lists are closed under parent back-references
    intro i u' q qu' hu' hq hqu' m hm
    obtain ⟨u₀, hu₀, hcase⟩ := polymorphic_get_cases st name p hwf hp i u' hu'
    obtain ⟨qu₀, hqu₀, hqcase⟩ := polymorphic_get_cases st name p hwf hp q qu' hqu'
    have hq₀ : u₀.parent = some q := by
      rcases hcase with ⟨_, rfl⟩ | ⟨_, rfl⟩
      · rw [registerInUnion_parent] at hq
        exact hq
      · exact hq
    have hmm : m ∈ u₀.typeList ∨ (m = st.unions.length ∧ i ∈ polyChain st name p) := by
      rcases hcase with ⟨hcmem, rfl⟩ | ⟨_, rfl⟩
      · rw [registerInUnion_typeList] at hm
        rcases List.mem_append.mp hm with h | h
        · exact Or.inl h
        · simp only [List.mem_singleton] at h
          exact Or.inr ⟨h, hcmem⟩
      · exact Or.inl hm
    rcases hmm with hmO | ⟨hmn, hmemC⟩
    · have hiO : i < st.unions.length := by
        by_contra hc
        have hin : i < st.unions.length + 1 := by
          have := get_some_lt _ _ _ hu₀
          simpa using this
        have hie : i = st.unions.length := by omega
        subst hie
        rw [get_append_self] at hu₀
        cases hu₀
        simp [newUnion] at hmO
      have hu₀' : st.unions.get? i = some u₀ := by
        rw [get_append_lt _ _ _ hiO] at hu₀
        exact hu₀
      have hqi : q < i := hwf i u₀ hu₀' q hq₀
      have hqO : q < st.unions.length := by omega
      have hqu₀' : st.unions.get? q = some qu₀ := by
        rw [get_append_lt _ _ _ hqO] at hqu₀
        exact hqu₀
      have hold : m ∈ qu₀.typeList := inv.closed i u₀ q qu₀ hu₀' hq₀ hqu₀' m hmO
      rcases hqcase with ⟨_, rfl⟩ | ⟨_, rfl⟩
      · rw [registerInUnion_typeList]
        exact List.mem_append_left _ hold
      · exact hold
    · subst hmn
      have hqC : q ∈ polyChain st name p :=
        polyChain_parent_closed st name p hwf hp hmemC hu₀ hq₀
      rcases hqcase with ⟨_, rfl⟩ | ⟨hqnC, _⟩
      · rw [registerInUnion_typeList]
        exact List.mem_append_right _ (by simp)
      · exact absurd hqC hqnC

theorem invariant_mst (st : SysState) (inv : Invariant st) (parent : Option Nat)
    (hp : ∀ j, parent = some j → j < st.unions.length)
    (modelName : Option (String ⊕ ClassyOptions)) (options : Option ClassyOptions) :
    Invariant (mst st parent modelName options).1 := by
  by_cases hs : (resolveArgs modelName options).2.sealedFlag
  · simpa [mst, hs] using inv
  · simpa [mst, hs] using
      invariant_polymorphic st inv (resolveArgs modelName options).1 parent hp

/-- Every reachable state satisfies the invariants. -/
theorem reachable_invariant {st : SysState} (h : Reachable st) : Invariant st := by
  induction h with
  | init => exact invariant_init
  | stepSetTypeTag t _ ih => exact invariant_setTypeTag _ _ ih
  | stepMst parent hp modelName options _ ih =>
    exact invariant_mst _ ih parent hp modelName options

theorem get_lt_some (us : List UnionData) (i : Nat) (h : i < us.length) :
    ∃ u, us.get? i = some u := by
  cases hu : us.get? i with
  | none =>
    rw [List.get?_eq_none] at hu
    omega
  | some u => exact ⟨u, rfl⟩

/-- Candidate lists are closed along arbitrary ancestor paths in an invariant
state: whatever is registered somewhere in a chain is registered in every
union above it. -/
theorem typeList_closed_ancestor (st : SysState) (inv : Invariant st)
    {i a : Nat} (hA : AncestorOf st.unions i a) :
    ∀ u au m, st.unions.get? i = some u → st.unions.get? a = some au →
      m ∈ u.typeList → m ∈ au.typeList := by
  induction hA with
  | parent hu hp =>
    intro u au m hu' ha' hm
    rw [hu] at hu'
    cases hu'
    exact inv.closed _ _ _ _ hu hp ha' m hm
  | @tail i p k u0 hu hp _ ih =>
    intro u au m hu' ha' hm
    rw [hu] at hu'
    cases hu'
    have hpi := inv.wf _ _ hu _ hp
    have hil := get_some_lt _ _ _ hu
    obtain ⟨up, hup⟩ := get_lt_some st.unions p (by omega)
    have hm' : m ∈ up.typeList := inv.closed _ _ _ _ hu hp hup m hm
    exact ih up au m hup ha' hm'

/-- Demo family: a root class `Base` bound first. -/
def demoBase : SysState := (mst initState none (some (Sum.inl "Base")) none).1

/-- Demo family: a subclass `Sub` bound with `Base` as parent. -/
def demoSub : SysState := (mst demoBase (some 0) (some (Sum.inl "Sub")) none).1

/-- Demo: an unrelated second root `Other` bound afterwards. -/
def demoOther : SysState := (mst demoSub none (some (Sum.inl "Other")) none).1

theorem demoBase_reachable : Reachable demoBase :=
  Reachable.stepMst none (fun _ h => nomatch h) (some (Sum.inl "Base")) none
    Reachable.init

theorem demoSub_reachable : Reachable demoSub :=
  Reachable.stepMst (some 0)
    (fun j h => by cases h; decide) (some (Sum.inl "Sub")) none demoBase_reachable

theorem demoOther_reachable : Reachable demoOther :=
  Reachable.stepMst none (fun _ h => nomatch h) (some (Sum.inl "Other")) none
    demoSub_reachable

/-- Claim C3: the snapshot post-processor stamps the current discriminator
property name into the outgoing snapshot, with the model's name as value,
exactly when the class has a recorded parent, a model name was given and a
type tag is currently set ("given"/"set" follow the source's JS truthiness,
so an empty string counts as absent); in every other case — in particular
for a root, parentless class — the snapshot is returned unchanged. -/
theorem claim3_postprocess_stamp (name tag : Option String) (hasParent : Bool)
    (snap : Snap) :
    (∀ s t, name = some s → s ≠ "" → tag = some t → t ≠ "" → hasParent = true →
      postProcessSnapshot name tag hasParent snap = setProp snap t (.str s) ∧
      getProp (postProcessSnapshot name tag hasParent snap) t = some (.str s))
    ∧ (hasParent = false → postProcessSnapshot name tag hasParent snap = snap)
    ∧ (name = none ∨ name = some "" ∨ tag = none ∨ tag = some "" →
        postProcessSnapshot name tag hasParent snap = snap) := by
  refine ⟨?_, ?_, ?_⟩
  · intro s t hs hsne ht htne hp
    subst hs
    subst ht
    subst hp
    constructor
    · simp [postProcessSnapshot, hsne, htne]
    · simpa [postProcessSnapshot, hsne, htne, getProp, setProp] using
        assocGet_assocSet_self snap t (JsValue.str s)
  · intro hp
    subst hp
    cases name with
    | none => rfl
    | some s =>
      cases tag with
      | none => rfl
      | some t => simp [postProcessSnapshot]
  · intro h
    rcases h with h | h | h | h
    · subst h
      cases tag <;> rfl
    · subst h
      cases tag with
      | none => rfl
      | some t => simp [postProcessSnapshot]
    · subst h
      cases name <;> rfl
    · subst h
      cases name with
      | none => rfl
      | some s => simp [postProcessSnapshot]

/-- Witness for C3: with name `Sub`, tag `$` and a parent, the snapshot gets
the tag stamped; a parentless root is left unchanged. -/
theorem claim3_postprocess_stamp_witness :
    postProcessSnapshot (some "Sub") (some "$") true [("done", JsValue.boolean true)]
      = [("done", JsValue.boolean true), ("$", JsValue.str "Sub")]
    ∧ postProcessSnapshot (some "Base") (some "$") false [("done", JsValue.boolean true)]
      = [("done", JsValue.boolean true)] := by
  constructor
  · have h := (claim3_postprocess_stamp (some "Sub") (some "$") true
      [("done", JsValue.boolean true)]).1 "Sub" "$" rfl (by decide) rfl (by decide) rfl
    exact h.1
  · exact (claim3_postprocess_stamp (some "Base") (some "$") false
      [("done", JsValue.boolean true)]).2.1 rfl

/-- Claim C5: after `setTypeTag()` with no argument, tagging is disabled for
every family: no snapshot post-processing writes a discriminator, and every
union decode falls back to its own base type. -/
theorem claim5_setTypeTag_disables (st : SysState) :
    (setTypeTag none st).typeTag = none
    ∧ (∀ i u snap, getU (setTypeTag none st) i = some u →
        encodeSnap (setTypeTag none st) i snap = snap)
    ∧ (∀ i u osnap, getU (setTypeTag none st) i = some u →
        decodeSnap (setTypeTag none st) i osnap = some i) := by
  refine ⟨rfl, ?_, ?_⟩
  · intro i u snap hu
    simp only [encodeSnap, hu]
    cases u.modelName <;> rfl
  · intro i u osnap hu
    simp only [decodeSnap, hu]
    cases osnap <;> rfl

/-- Witness for C5: disabling tagging in the demo family stops stamping and
dispatch alike. -/
theorem claim5_setTypeTag_disables_witness :
    encodeSnap (setTypeTag none demoSub) 1 [] = []
    ∧ decodeSnap (setTypeTag none demoSub) 0 (some [("$", JsValue.str "Sub")]) = some 0 := by
  have h := claim5_setTypeTag_disables demoSub
  constructor
  · exact h.2.1 1 ⟨some "Sub", some 0, [1], [("Sub", 1)]⟩ [] (by decide)
  · exact h.2.2 0 ⟨some "Base", none, [0, 1], [("Base", 0), ("Sub", 1)]⟩
      (some [("$", JsValue.str "Sub")]) (by decide)

/-- Claim C6: the discriminator name is read from the process-wide registry
at the moment a snapshot is encoded or decoded, not copied at union-creation
time: a `setTypeTag` call leaves every already-created union's data untouched,
and encodes and decodes performed afterwards are governed by the new name. -/
theorem claim6_tag_read_live (st : SysState) (t' : Option String) (i : Nat)
    (u : UnionData) (hu : getU st i = some u) :
    getU (setTypeTag t' st) i = some u
    ∧ (∀ snap, encodeSnap (setTypeTag t' st) i snap =
        postProcessSnapshot u.modelName t' u.parent.isSome snap)
    ∧ (∀ osnap, decodeSnap (setTypeTag t' st) i osnap =
        some (dispatcher t' u.typeTbl i osnap)) := by
  refine ⟨hu, ?_, ?_⟩
  · intro snap
    have hu' : getU (setTypeTag t' st) i = some u := hu
    simp only [encodeSnap, hu']
    rfl
  · intro osnap
    have hu' : getU (setTypeTag t' st) i = some u := hu
    simp only [decodeSnap, hu']
    rfl

/-- Witness for C6: retargeting the discriminator to `type` after the demo
family was created changes both the stamp and the dispatch key. -/
theorem claim6_tag_read_live_witness :
    encodeSnap (setTypeTag (some "type") demoSub) 1 [] = [("type", JsValue.str "Sub")]
    ∧ decodeSnap (setTypeTag (some "type") demoSub) 0
        (some [("type", JsValue.str "Sub")]) = some 1
    ∧ decodeSnap (setTypeTag (some "type") demoSub) 0
        (some [("$", JsValue.str "Sub")]) = some 0 := by
  have h := claim6_tag_read_live demoSub (some "type") 1
    ⟨some "Sub", some 0, [1], [("Sub", 1)]⟩ (by decide)
  have h0 := claim6_tag_read_live demoSub (some "type") 0
    ⟨some "Base", none, [0, 1], [("Base", 0), ("Sub", 1)]⟩ (by decide)
  refine ⟨?_, ?_, ?_⟩
  · rw [h.2.1 []]
    rfl
  · rw [h0.2.2 (some [("type", JsValue.str "Sub")])]
    rfl
  · rw [h0.2.2 (some [("$", JsValue.str "Sub")])]
    rfl

/-- Claim C9: when `mst` is called with an options object whose `sealed` flag
is true, it returns the plain assembled model: no snapshot pre-processing
defaulting rule is installed, no polymorphic union is created, and the system
state — every union's candidate list and tag table — is left untouched. -/
theorem claim9_sealed_plain (st : SysState) (parent : Option Nat)
    (modelName : Option (String ⊕ ClassyOptions)) (options : Option ClassyOptions)
    (h : (resolveArgs modelName options).2.sealedFlag = true) :
    (mst st parent modelName options).1 = st
    ∧ (mst st parent modelName options).2.preInstalled = false
    ∧ (mst st parent modelName options).2.unionId = none := by
  refine ⟨?_, ?_, ?_⟩ <;> simp [mst, h]

/-- Claim C1: decoding through a polymorphic union in any reachable state —
if the snapshot carries the current discriminator property (tagging enabled,
i.e. the tag is a non-empty string) with a value under which a type is
registered in this union's tag table, that registered type is selected;
otherwise (no snapshot, snapshot untagged, tagging disabled, or tag value not
in the table) the union's own base model is selected; and the dispatcher is
total, always answering with a registered type or the base, so no error is
ever raised. -/
theorem claim1_union_dispatch (st : SysState) (hreach : Reachable st) (i : Nat)
    (u : UnionData) (hu : getU st i = some u) :
    (∀ t v m snap, st.typeTag = some t → t ≠ "" →
        getProp snap t = some (.str v) → assocGet u.typeTbl v = some m →
        decodeSnap st i (some snap) = some m)
    ∧ (decodeSnap st i none = some i)
    ∧ (∀ snap, st.typeTag = none → decodeSnap st i (some snap) = some i)
    ∧ (∀ snap, st.typeTag = some "" → decodeSnap st i (some snap) = some i)
    ∧ (∀ t snap, st.typeTag = some t → getProp snap t = none →
        decodeSnap st i (some snap) = some i)
    ∧ (∀ t v snap, st.typeTag = some t → getProp snap t = some (.str v) →
        assocGet u.typeTbl v = none → decodeSnap st i (some snap) = some i)
    ∧ (∀ osnap, ∃ r, decodeSnap st i osnap = some r ∧
        (r = i ∨ ∃ k, assocGet u.typeTbl k = some r)) := by
  have inv := reachable_invariant hreach
  refine ⟨?_, ?_, ?_, ?_, ?_, ?_, ?_⟩
  · intro t v m snap ht htne hget htbl
    have hvne : v ≠ "" := by
      intro hE
      subst hE
      rw [inv.tblKeys i u hu] at htbl
      cases htbl
    simp [decodeSnap, hu, dispatcher, ht, htne, hget, truthyV, toPropertyKey,
      hvne, htbl]
  · simp only [decodeSnap, hu]
    cases st.typeTag <;> rfl
  · intro snap ht
    simp [decodeSnap, hu, dispatcher, ht]
  · intro snap ht
    simp [decodeSnap, hu, dispatcher, ht]
  · intro t snap ht hget
    simp only [decodeSnap, hu, dispatcher, ht]
    by_cases htne : t = ""
    · simp [htne]
    · simp [htne, hget]
  · intro t v snap ht hget htbl
    simp only [decodeSnap, hu, dispatcher, ht]
    by_cases htne : t = ""
    · simp [htne]
    · by_cases hv : v = ""
      · simp [htne, hget, hv, truthyV]
      · simp [htne, hget, hv, truthyV, toPropertyKey, htbl]
  · intro osnap
    simp only [decodeSnap, hu]
    cases osnap with
    | none =>
      refine ⟨i, ?_, Or.inl rfl⟩
      cases st.typeTag <;> rfl
    | some snap =>
      cases ht : st.typeTag with
      | none => exact ⟨i, rfl, Or.inl rfl⟩
      | some t =>
        by_cases htne : t = ""
        · exact ⟨i, by simp [dispatcher, htne], Or.inl rfl⟩
        · cases hget : getProp snap t with
          | none => exact ⟨i, by simp [dispatcher, htne, hget], Or.inl rfl⟩
          | some v =>
            by_cases htv : truthyV v = true
            · cases htbl : assocGet u.typeTbl (toPropertyKey v) with
              | none =>
                exact ⟨i, by simp [dispatcher, htne, hget, htv, htbl], Or.inl rfl⟩
              | some m =>
                exact ⟨m, by simp [dispatcher, htne, hget, htv, htbl],
                  Or.inr ⟨toPropertyKey v, htbl⟩⟩
            · exact ⟨i, by simp [dispatcher, htne, hget, htv], Or.inl rfl⟩

/-- Witness for C1: in the demo family, a `Sub`-tagged snapshot decodes to
the registered subtype, an unknown tag and a missing tag fall back to the
base, and disabling never errors. -/
theorem claim1_union_dispatch_witness :
    decodeSnap demoSub 0 (some [("$", JsValue.str "Sub")]) = some 1
    ∧ decodeSnap demoSub 0 (some [("$", JsValue.str "Unknown")]) = some 0
    ∧ decodeSnap demoSub 0 (some [("done", JsValue.boolean true)]) = some 0
    ∧ decodeSnap demoSub 0 none = some 0 := by
  have h := claim1_union_dispatch demoSub demoSub_reachable 0
    ⟨some "Base", none, [0, 1], [("Base", 0), ("Sub", 1)]⟩ (by decide)
  refine ⟨?_, ?_, ?_, h.2.1⟩
  · exact h.1 "$" "Sub" 1 [("$", JsValue.str "Sub")] rfl (by decide) rfl rfl
  · exact h.2.2.2.2.2.1 "$" "Unknown" [("$", JsValue.str "Unknown")] rfl rfl rfl
  · exact h.2.2.2.2.1 "$" [("done", JsValue.boolean true)] rfl rfl

/-- Claim C4: a snapshot of a subtype instance — a model with a (truthy)
name, a recorded parent, while tagging is enabled — decodes through any base
union back to that same subtype when the base's tag table registers the name,
and to the base type itself when it does not. -/
theorem claim4_roundtrip (st : SysState) (b m : Nat) (ub um : UnionData)
    (hub : getU st b = some ub) (hum : getU st m = some um)
    (s t : String) (hname : um.modelName = some s) (hs : s ≠ "")
    (hpar : um.parent.isSome = true) (ht : st.typeTag = some t) (htne : t ≠ "")
    (snap : Snap) :
    (assocGet ub.typeTbl s = some m →
      decodeSnap st b (some (encodeSnap st m snap)) = some m)
    ∧ (assocGet ub.typeTbl s = none →
      decodeSnap st b (some (encodeSnap st m snap)) = some b) := by
  have henc : encodeSnap st m snap = setProp snap t (.str s) := by
    simp [encodeSnap, hum, postProcessSnapshot, hname, ht, hs, htne, hpar]
  have hget : getProp (encodeSnap st m snap) t = some (.str s) := by
    rw [henc]
    exact assocGet_assocSet_self snap t (.str s)
  constructor
  · intro htbl
    simp [decodeSnap, hub, dispatcher, ht, htne, hget, truthyV, toPropertyKey,
      hs, htbl]
  · intro htbl
    simp [decodeSnap, hub, dispatcher, ht, htne, hget, truthyV, toPropertyKey,
      hs, htbl]

/-- Witness for C4: `Sub`'s snapshot round-trips through `Base`'s union back
to `Sub`; through the unrelated `Other` union, where `Sub` is not registered,
it degrades to that union's own base type. -/
theorem claim4_roundtrip_witness :
    decodeSnap demoOther 0 (some (encodeSnap demoOther 1 [])) = some 1
    ∧ decodeSnap demoOther 2 (some (encodeSnap demoOther 1 [])) = some 2 := by
  constructor
  · exact (claim4_roundtrip demoOther 0 1
      ⟨some "Base", none, [0, 1], [("Base", 0), ("Sub", 1)]⟩
      ⟨some "Sub", some 0, [1], [("Sub", 1)]⟩ (by decide) (by decide)
      "Sub" "$" rfl (by decide) rfl rfl (by decide) []).1 rfl
  · exact (claim4_roundtrip demoOther 2 1
      ⟨some "Other", none, [2], [("Other", 2)]⟩
      ⟨some "Sub", some 0, [1], [("Sub", 1)]⟩ (by decide) (by decide)
      "Sub" "$" rfl (by decide) rfl rfl (by decide) []).2 rfl

/-- Claim C7: a class member declared with a setter but no getter is still
exposed by the views assembly — never rejected or dropped: its descriptor
receives the synthesized `dummyGetter`, which returns `undefined` for every
receiver, and the original setter bound so that its receiver is the live
tree-node instance `self`. -/
theorem claim7_setter_no_getter (self : JsValue) (s : Setter) (e c : Bool)
    (name : String) (l : List (String × PropDesc))
    (h : (name, PropDesc.mk none (some s) e c) ∈ l) :
    bindDescriptor self (PropDesc.mk none (some s) e c) =
      PropDesc.mk (some dummyGetter) (some (fun _this v => s self v)) true c
    ∧ (∀ r, dummyGetter r = none)
    ∧ (∀ r v, (fun (_this v : JsValue) => s self v) r v = s self v)
    ∧ (name, PropDesc.mk (some dummyGetter) (some (fun _this v => s self v)) true c)
        ∈ bindDescList self l := by
  refine ⟨rfl, fun r => rfl, fun r v => rfl, ?_⟩
  have hmem := List.mem_map_of_mem (fun q => (q.1, bindDescriptor self q.2)) h
  simpa [bindDescList] using hmem

/-- Witness for C7: a concrete write-only property is bound with the dummy
getter and the `self`-receiving setter. -/
theorem claim7_setter_no_getter_witness :
    bindDescriptor JsValue.null
        (PropDesc.mk none (some (fun _ v => some v)) false true) =
      PropDesc.mk (some dummyGetter)
        (some (fun _this v => (fun (_ v : JsValue) => some v) JsValue.null v))
        true true :=
  (claim7_setter_no_getter JsValue.null (fun _ v => some v) false true "color"
    [("color", PropDesc.mk none (some (fun _ v => some v)) false true)]
    (by simp)).1

theorem action_head_step (l : ProtoLevel) (rest : ProtoChain) (k : String)
    (h : l.actions ≠ none ∨ lookupActions rest = none) :
    ∃ acts, action k (l :: rest) = ProtoLevel.mk (some acts) :: rest := by
  cases hl : l.actions with
  | some t =>
    refine ⟨t ++ [k], ?_⟩
    simp [action, lookupActions, hl, markFirstActions]
  | none =>
    rcases h with h | h
    · exact absurd hl h
    · refine ⟨[k], ?_⟩
      simp [action, lookupActions, hl, h]

theorem foldl_action_tail (pp : ProtoChain) (keys : List String) (l : ProtoLevel)
    (h : l.actions ≠ none ∨ lookupActions pp = none) :
    ∃ l', keys.foldl (fun c k => action k c) (l :: pp) = l' :: pp ∧
      (l'.actions ≠ none ∨ lookupActions pp = none) := by
  induction keys generalizing l with
  | nil => exact ⟨l, rfl, h⟩
  | cons k ks ih =>
    obtain ⟨acts, hstep⟩ := action_head_step l pp k h
    rw [List.foldl_cons, hstep]
    exact ih ⟨some acts⟩ (Or.inl (by simp))

/-- Claim C8: `shim` with a parent resets action bookkeeping rather than
inheriting it — the produced prototype carries an own empty action table
whenever the parent chain exposes one, the new class starts with no inherited
markings, and decorating any number of subclass methods with `action` leaves
every ancestor level of the chain (hence every ancestor's action table)
untouched. -/
theorem claim8_shim_resets_actions (pp : ProtoChain) :
    (∀ t, lookupActions pp = some t →
        shim (some pp) = ProtoLevel.mk (some []) :: pp)
    ∧ (lookupActions (shim (some pp)) = some [] ∨
        lookupActions (shim (some pp)) = none)
    ∧ (∀ keys : List String,
        (List.foldl (fun c k => action k c) (shim (some pp)) keys).tail = pp) := by
  refine ⟨?_, ?_, ?_⟩
  · intro t h
    simp [shim, h]
  · cases h : lookupActions pp with
    | some t =>
      left
      simp [shim, lookupActions, h]
    | none =>
      right
      simp [shim, lookupActions, h]
  · intro keys
    cases h : lookupActions pp with
    | some t =>
      have hs : shim (some pp) = ProtoLevel.mk (some []) :: pp := by simp [shim, h]
      rw [hs]
      obtain ⟨l', hl', _⟩ := foldl_action_tail pp keys ⟨some []⟩ (Or.inl (by simp))
      rw [hl']
      rfl
    | none =>
      have hs : shim (some pp) = ProtoLevel.mk none :: pp := by simp [shim, h]
      rw [hs]
      obtain ⟨l', hl', _⟩ := foldl_action_tail pp keys ⟨none⟩ (Or.inr h)
      rw [hl']
      rfl

/-- Witness for C8: over a parent prototype whose table marks `toggle`, the
shimmed subclass prototype starts with an own empty table, and decorating a
subclass method leaves the parent level untouched. -/
theorem claim8_shim_resets_actions_witness :
    shim (some [ProtoLevel.mk (some ["toggle"])]) =
      [ProtoLevel.mk (some []), ProtoLevel.mk (some ["toggle"])]
    ∧ (["run"].foldl (fun c k => action k c)
        (shim (some [ProtoLevel.mk (some ["toggle"])]))).tail
        = [ProtoLevel.mk (some ["toggle"])] := by
  have h := claim8_shim_resets_actions [ProtoLevel.mk (some ["toggle"])]
  exact ⟨h.1 ["toggle"] rfl, h.2.2 ["run"]⟩

/-- Witness for C9: a sealed bind on the demo family changes nothing. -/
theorem claim9_sealed_plain_witness :
    (mst demoSub (some 0) (some (Sum.inr ⟨some "Sealed", true⟩)) none).1 = demoSub
    ∧ (mst demoSub (some 0) (some (Sum.inr ⟨some "Sealed", true⟩)) none).2.preInstalled
        = false
    ∧ (mst demoSub (some 0) (some (Sum.inr ⟨some "Sealed", true⟩)) none).2.unionId
        = none :=
  claim9_sealed_plain demoSub (some 0) (some (Sum.inr ⟨some "Sealed", true⟩)) none rfl

/-- Claim C2: binding a new subclass via `mst`/`polymorphic` registers its
assembled model eagerly at bind time — the walked chain is exactly the new
union itself plus its ancestors along the recorded parent back-references up
to the root; each union on that chain receives the new model in its candidate
list exactly once and, when a (truthy) model name was given, an entry for it
in its tag table; every union off the chain is untouched; and consequently in
every reachable state a subtype registered anywhere in an ancestor chain is
registered in every ancestor's union transitively up to the root. -/
theorem claim2_eager_registration (st : SysState) (hreach : Reachable st)
    (name : Option String) (p : Option Nat)
    (hp : ∀ j, p = some j → j < st.unions.length) :
    (∀ a, a ∈ polyChain st name p ↔
        (a = st.unions.length ∨
         AncestorOf (st.unions ++ [newUnion name p]) st.unions.length a))
    ∧ (∀ a, a ∈ polyChain st name p →
        ∃ u', getU (polymorphic st name p).1 a = some u' ∧
          u'.typeList.count st.unions.length = 1 ∧
          ∀ s, name = some s → s ≠ "" → assocGet u'.typeTbl s = some st.unions.length)
    ∧ (∀ a, a ∉ polyChain st name p →
        getU (polymorphic st name p).1 a = (st.unions ++ [newUnion name p]).get? a)
    ∧ (∀ st₂, Reachable st₂ → ∀ i a u au m,
        AncestorOf st₂.unions i a → st₂.unions.get? i = some u →
        st₂.unions.get? a = some au → m ∈ u.typeList → m ∈ au.typeList) := by
  have inv := reachable_invariant hreach
  have hwf := inv.wf
  have hwf' := parentsWF_append st.unions hwf name p hp
  refine ⟨?_, ?_, ?_, ?_⟩
  · intro a
    exact mem_chainFrom_iff _ hwf' (st.unions.length + 1) st.unions.length a
      (by omega)
  · intro a ha
    have hg := polymorphic_unions_get st name p hwf hp a
    rw [if_pos ha] at hg
    have hal : a ≤ st.unions.length := mem_chainFrom_le _ hwf' _ _ a ha
    obtain ⟨u₀, hu₀⟩ := get_lt_some (st.unions ++ [newUnion name p]) a
      (by simp; omega)
    rw [hu₀] at hg
    simp only [Option.map_some'] at hg
    have hcount : u₀.typeList.count st.unions.length = 0 := by
      rw [List.count_eq_zero]
      intro hmem
      by_cases halt : a < st.unions.length
      · rw [get_append_lt _ _ _ halt] at hu₀
        have := inv.listBound a u₀ hu₀ _ hmem
        omega
      · have haeq : a = st.unions.length := by omega
        subst haeq
        rw [get_append_self] at hu₀
        cases hu₀
        simp [newUnion] at hmem
    refine ⟨registerInUnion name st.unions.length u₀, hg, ?_, ?_⟩
    · rw [registerInUnion_typeList, List.count_append, hcount]
      simp
    · intro s hs hsne
      subst hs
      simp only [registerInUnion, bne_iff_ne, ne_eq, hsne, not_false_eq_true,
        if_pos]
      exact assocGet_assocSet_self u₀.typeTbl s st.unions.length
  · intro a ha
    have hg := polymorphic_unions_get st name p hwf hp a
    rw [if_neg ha] at hg
    exact hg
  · intro st₂ h₂ i a u au m hA hu hau hm
    exact typeList_closed_ancestor st₂ (reachable_invariant h₂) hA u au m hu hau hm

/-- Witness for C2: binding `Sub` over the demo root registers it exactly
once in both its own union and the root's, under its name. -/
theorem claim2_eager_registration_witness :
    (0 ∈ polyChain demoBase (some "Sub") (some 0)
      ∧ 1 ∈ polyChain demoBase (some "Sub") (some 0))
    ∧ (∃ u', getU (polymorphic demoBase (some "Sub") (some 0)).1 0 = some u' ∧
        u'.typeList.count 1 = 1 ∧ assocGet u'.typeTbl "Sub" = some 1)
    ∧ (∃ u', getU (polymorphic demoBase (some "Sub") (some 0)).1 1 = some u' ∧
        u'.typeList.count 1 = 1 ∧ assocGet u'.typeTbl "Sub" = some 1) := by
  have h := claim2_eager_registration demoBase demoBase_reachable (some "Sub")
    (some 0) (fun j hj => by cases hj; decide)
  refine ⟨⟨by decide, by decide⟩, ?_, ?_⟩
  · obtain ⟨u', hg, hc, ht⟩ := h.2.1 0 (by decide)
    exact ⟨u', hg, hc, ht "Sub" rfl (by decide)⟩
  · obtain ⟨u', hg, hc, ht⟩ := h.2.1 1 (by decide)
    exact ⟨u', hg, hc, ht "Sub" rfl (by decide)⟩

/-- Claim C10: `mstWithChildren` ignores its `name` argument entirely — the
result is identical for any two name arguments — and the model it assembles
is always named `Node`: the created union carries model name `Node`, and its
tag-table key (hence the snapshot discriminator value) is `Node`. -/
theorem claim10_mstWithChildren_node (st : SysState) (hreach : Reachable st)
    (parent : Option Nat) (hp : ∀ j, parent = some j → j < st.unions.length)
    (nm nm' : Option String) :
    mstWithChildren st parent nm = mstWithChildren st parent nm'
    ∧ (mstWithChildren st parent nm).2.name = some "Node"
    ∧ (mstWithChildren st parent nm).2.unionId = some st.unions.length
    ∧ ∃ u', getU (mstWithChildren st parent nm).1 st.unions.length = some u' ∧
        u'.modelName = some "Node" ∧
        assocGet u'.typeTbl "Node" = some st.unions.length := by
  have inv := reachable_invariant hreach
  refine ⟨rfl, rfl, rfl, ?_⟩
  have hself : st.unions.length ∈ polyChain st (some "Node") parent :=
    self_mem_chainFrom _ _ _
  have hg := polymorphic_unions_get st (some "Node") parent inv.wf hp
    st.unions.length
  rw [if_pos hself, get_append_self] at hg
  simp only [Option.map_some'] at hg
  exact ⟨registerInUnion (some "Node") st.unions.length
      (newUnion (some "Node") parent), hg, rfl, rfl⟩

/-- Witness for C10: calling `mstWithChildren` with a throwaway name yields
the same state and result as with no name, and the union is named and
registered as `Node`. -/
theorem claim10_mstWithChildren_node_witness :
    mstWithChildren initState none (some "Whatever")
      = mstWithChildren initState none none
    ∧ (mstWithChildren initState none (some "Whatever")).2.name = some "Node"
    ∧ ∃ u', getU (mstWithChildren initState none (some "Whatever")).1 0 = some u' ∧
        u'.modelName = some "Node" ∧ assocGet u'.typeTbl "Node" = some 0 := by
  have h := claim10_mstWithChildren_node initState Reachable.init none
    (fun _ hj => nomatch hj) (some "Whatever") none
  exact ⟨h.1, h.2.1, h.2.2.2⟩

end ClassyMst
